import Mathlib

/-!
Verification development for the GitHub enrichment engine of mcp-scorecard
(source file: src/mcp_scorecard/enrichers/github.py).

The Python code is shallowly embedded: dictionaries become association
lists with first-match lookup and replace-in-place insertion (matching
CPython dict semantics for the operations the engine uses), JSON values
become an inductive type, floating-point timestamps become rationals,
and the network is abstracted into oracles that supply, for each HTTP
interaction, the outcome the provider produced.  Every definition carries
a comment naming the source lines it embeds.
-/

set_option linter.unusedVariables false

/-! ### Association lists with Python-dict semantics -/

/-- First-match lookup, i.e. Python d.get(k) / d[k] on a dict whose items
are listed in insertion order. -/
def dlookup {α : Type} (k : String) : List (String × α) → Option α
  | [] => none
  | (k2, v) :: t => if k2 = k then some v else dlookup k t

/-- Python d[k] = v on a dict: replace the value in place when the key is
present, otherwise append the new pair at the end. -/
def dinsert {α : Type} (m : List (String × α)) (k : String) (v : α) :
    List (String × α) :=
  match m with
  | [] => [(k, v)]
  | (k2, v2) :: t => if k2 = k then (k2, v) :: t else (k2, v2) :: dinsert t k v

theorem dlookup_dinsert_self {α : Type} (m : List (String × α)) (k : String)
    (v : α) : dlookup k (dinsert m k v) = some v := by
  induction m with
  | nil => simp [dinsert, dlookup]
  | cons h t ih =>
      by_cases hk : h.1 = k
      · simp [dinsert, hk, dlookup]
      · simp [dinsert, hk, dlookup, ih]

theorem dlookup_dinsert_ne {α : Type} (m : List (String × α)) (k k2 : String)
    (v : α) (hne : k2 ≠ k) : dlookup k2 (dinsert m k v) = dlookup k2 m := by
  have hne2 : ¬ k = k2 := fun e => hne e.symm
  induction m with
  | nil => simp [dinsert, dlookup, hne2]
  | cons hd t ih =>
      by_cases hk : hd.1 = k
      · rw [show (hd :: t = (hd.1, hd.2) :: t) from rfl]
        simp [dinsert, hk, dlookup, hne2]
      · by_cases hk2 : hd.1 = k2
        · simp [dinsert, hk, dlookup, hk2, hne]
        · simp [dinsert, hk, dlookup, hk2, ih]

/-- Membership in the result of dinsert comes from the old list or is the
newly written pair. -/
theorem mem_dinsert {α : Type} (m : List (String × α)) (k : String) (v : α)
    (q : String × α) (hq : q ∈ dinsert m k v) : q.2 = v ∨ q ∈ m := by
  induction m with
  | nil =>
      simp [dinsert] at hq
      subst hq; exact Or.inl rfl
  | cons h t ih =>
      by_cases hk : h.1 = k
      · simp [dinsert, hk] at hq
        rcases hq with hq | hq
        · subst hq; exact Or.inl rfl
        · exact Or.inr (List.mem_cons_of_mem _ hq)
      · simp [dinsert, hk] at hq
        rcases hq with hq | hq
        · subst hq; exact Or.inr (List.mem_cons_self _ _)
        · rcases ih hq with h2 | h2
          · exact Or.inl h2
          · exact Or.inr (List.mem_cons_of_mem _ h2)

/-! ### JSON values

Parsed JSON documents, as the Python json module produces them (floats
become rationals).  A Python None obtained from dict.get on a missing key
is identified with JSON null. -/

inductive JsonVal : Type where
  | null : JsonVal
  | bool (b : Bool) : JsonVal
  | num (q : ℚ) : JsonVal
  | str (s : String) : JsonVal
  | arr (xs : List JsonVal) : JsonVal
  | obj (kvs : List (String × JsonVal)) : JsonVal

abbrev JsonObj := List (String × JsonVal)

/-- Python o.get(k) on a parsed JSON object: the stored value, or None
(JSON null) when the key is absent. -/
def jget (o : JsonObj) (k : String) : JsonVal :=
  (dlookup k o).getD JsonVal.null

/-- Whether a JSON value is an object (a Python dict). -/
def isObjJson : JsonVal → Bool
  | JsonVal.obj _ => true
  | _ => false

/-! ### Configuration constants (src/mcp_scorecard/config.py lines 184-191) -/

def GITHUB_RATE_LIMIT_BUFFER : Int := 100

def GITHUB_CONCURRENT_REQUESTS : Nat := 10

def GITHUB_CACHE_MAX_AGE_DAYS : ℚ := 7

/-! ### Repository URL parsing

Embeds _parse_repo_url (github.py lines 41-52), which matches the anchored
regular expression

  https?://github.com/(?P<owner>[^/]+)/(?P<repo>[^/.]+?)(?:.git)?/?$

against url.strip().  The embedding decomposes the regex left to right.
Each step below is an exact account of the possible matches: the owner
class excludes the slash, so the owner group is forced to be the segment
up to the first slash after the host; the repo class excludes both slash
and dot, so when the remainder ends in a slash that slash can only be
consumed by the final optional slash, and when what is left then ends in
the four characters dot-g-i-t those can only be consumed by the optional
group (the repo group admits no dot); a match exists exactly when the
core left over is nonempty and free of slashes and dots. -/

/-- Strings are modelled as their character lists.  Consume an expected
literal run of characters, returning the remainder, or none if the input
does not start with it. -/
def chompPre : List Char → List Char → Option (List Char)
  | [], s => some s
  | _ :: _, [] => none
  | p :: ps, c :: cs => if c = p then chompPre ps cs else none

/-- Python str.isspace() on one character: the exact set of codepoints
str.strip() removes, namely 0x09-0x0D, 0x1C-0x20, the next line 0x85,
the no-break space 0xA0, and the Unicode space and separator codepoints
0x1680, 0x2000-0x200A, 0x2028-0x2029, 0x202F, 0x205F and 0x3000. -/
def pyIsSpace (c : Char) : Bool :=
  (decide (0x09 ≤ c.toNat) && decide (c.toNat ≤ 0x0D)) ||
  (decide (0x1C ≤ c.toNat) && decide (c.toNat ≤ 0x20)) ||
  decide (c.toNat = 0x85) || decide (c.toNat = 0xA0) ||
  decide (c.toNat = 0x1680) ||
  (decide (0x2000 ≤ c.toNat) && decide (c.toNat ≤ 0x200A)) ||
  decide (c.toNat = 0x2028) || decide (c.toNat = 0x2029) ||
  decide (c.toNat = 0x202F) || decide (c.toNat = 0x205F) ||
  decide (c.toNat = 0x3000)

/-- Python str.strip() on a character list: drop the characters of the
isspace set from both ends. -/
def stripWs (s : List Char) : List Char :=
  ((s.dropWhile pyIsSpace).reverse.dropWhile pyIsSpace).reverse

/-- The mandatory scheme and host part of the pattern: http, an optional
s (forced whenever the next character is an s, since the alternative
would require s to equal the colon of ://), then ://github.com/ . -/
def chompSchemeHost (s : List Char) : Option (List Char) :=
  match chompPre (['h', 't', 't', 'p']) s with
  | none => none
  | some r1 =>
    let r2 : List Char :=
      match r1 with
      | 's' :: t => t
      | t => t
    chompPre ([':', '/', '/', 'g', 'i', 't', 'h', 'u', 'b', '.', 'c', 'o', 'm', '/']) r2

/-- Split at the first slash: the owner group [^/]+ is exactly the run of
characters before the first slash (none when no slash exists). -/
def splitSeg : List Char → Option (List Char × List Char)
  | [] => none
  | c :: cs =>
      if c = '/' then some ([], cs)
      else
        match splitSeg cs with
        | some (a, b) => some (c :: a, b)
        | none => none

/-- Remove a literal suffix when present, keep the input unchanged
otherwise.  Models an optional anchored suffix group of the regex whose
characters the repo class cannot consume. -/
def dropOptSuf (suf s : List Char) : List Char :=
  match chompPre suf.reverse s.reverse with
  | some r => r.reverse
  | none => s

/-- The repo group [^/.]+? must be nonempty and free of slashes and
dots. -/
def segOk (s : List Char) : Bool :=
  !s.isEmpty && s.all (fun c => !(c = '.') && !(c = '/'))

/-- Match the tail of the pattern, repo group then optional .git then
optional slash, against the whole remainder (the regex is anchored at the
end), returning the repo capture. -/
def matchRepoPart (s : List Char) : Option (List Char) :=
  if segOk (dropOptSuf (['.', 'g', 'i', 't']) (dropOptSuf (['/']) s)) then
    some (dropOptSuf (['.', 'g', 'i', 't']) (dropOptSuf (['/']) s))
  else none

/-- Embeds _parse_repo_url (github.py lines 47-52): extract the
(owner, repo) captures, or none when the regex does not match. -/
def parseRepoUrl (url : List Char) : Option (List Char × List Char) :=
  match chompSchemeHost (stripWs url) with
  | none => none
  | some afterHost =>
    match splitSeg afterHost with
    | none => none
    | some (owner, rest) =>
      if owner = [] then none
      else
        match matchRepoPart rest with
        | some repo => some (owner, repo)
        | none => none

/-- The scheme and host characters of a well-formed https GitHub URL. -/
def ghBase : List Char :=
  ['h', 't', 't', 'p', 's', ':', '/', '/', 'g', 'i', 't', 'h', 'u', 'b', '.', 'c', 'o', 'm', '/']

/-! ### Cache store -/

/-- A persisted cache entry: the payload fields of the stored dict, plus
the value of its private timestamp key when present.  Written entries are
produced as a copy of the payload dict with the timestamp key added
(github.py line 441); timestamps are epoch seconds, modelled as
rationals. -/
structure CacheEntry : Type where
  fields : JsonObj
  cachedAt : Option ℚ

abbrev CacheMap := List (String × CacheEntry)

abbrev Payload := JsonObj

/-- Embeds _is_stale (github.py lines 412-418): an entry with no
timestamp is stale; otherwise it is stale when its age in days exceeds
the max age. -/
def isStale (e : CacheEntry) (now : ℚ) : Bool :=
  match e.cachedAt with
  | none => true
  | some t => decide ((now - t) / 86400 > GITHUB_CACHE_MAX_AGE_DAYS)

/-- The on-disk states the cache file can be in when _load_cache runs:
absent, present but unreadable (an OSError on open or read), present but
not valid JSON (json.JSONDecodeError), or present with a parsed JSON
document. -/
inductive CacheFile : Type where
  | absent : CacheFile
  | unreadable : CacheFile
  | invalidJson : CacheFile
  | parsed (v : JsonVal) : CacheFile

/-- Embeds _load_cache (github.py lines 392-401): an absent file yields
an empty dict, OSError and JSONDecodeError are caught and yield an empty
dict, and otherwise whatever json.load parsed is returned unchanged. -/
def loadCache : CacheFile → JsonVal
  | CacheFile.absent => JsonVal.obj []
  | CacheFile.unreadable => JsonVal.obj []
  | CacheFile.invalidJson => JsonVal.obj []
  | CacheFile.parsed v => v

/-- Embeds the merge loop of enrich (github.py lines 439-441): for each
fresh (name, data) pair, cache[name] is assigned a copy of data with the
timestamp key set to the merge-time now. -/
def mergeCache (cache : CacheMap) (fresh : List (String × Payload)) (now : ℚ) :
    CacheMap :=
  fresh.foldl (fun c nd => dinsert c nd.1 (CacheEntry.mk nd.2 (some now))) cache

/-- Whether a key starts with an underscore, i.e. Python
k.startswith on the private-field marker (github.py line 448). -/
def underscoreFirst (s : String) : Bool :=
  match s.data with
  | [] => false
  | c :: _ => c = '_'

/-- Embeds the cleaning comprehension of enrich (github.py lines
447-449): drop the keys that start with an underscore.  The private
timestamp is stored separately in this model, so it is dropped by
construction, and any other underscore-led field is filtered here. -/
def cleanEntry (e : CacheEntry) : Payload :=
  e.fields.filter (fun kv => !(underscoreFirst kv.1))

def cleanMap (c : CacheMap) : List (String × Payload) :=
  c.map (fun ne => (ne.1, cleanEntry ne.2))

/-- Embeds _save_cache (github.py lines 404-409) at the level of the file
contents a concurrent reader could observe: open(path, w) first truncates
the file in place, then json.dump writes the serialized mapping
incrementally.  The observable contents are therefore the old contents
(before the open), every written part of the new contents starting from
the empty truncated file, and finally the full new contents.  Contents
are byte strings modelled as character lists. -/
def saveObservable (old new : List Char) : List (List Char) :=
  old :: (List.range (new.length + 1)).map (fun k => new.take k)

/-- Modelled from the spec: atomic replacement relative to reader
observation means every observable state of the file is either the prior
contents or the full new contents, as a scoped write-then-rename would
guarantee. -/
def atomicReplacement (old new : List Char) (states : List (List Char)) : Prop :=
  ∀ s ∈ states, s = old ∨ s = new

/-! ### Rate budget tracker -/

/-- The shared rate-limit state of GitHubEnricher: the last known
remaining quota (None until a header or the probe body supplied one) and
the one-way exhausted flag (github.py lines 72-74). -/
structure RateState : Type where
  remaining : Option Int
  exhausted : Bool
deriving Repr

/-- The operations that touch the rate state during one run, each
carrying what the network supplied: a response header (none when the
header is absent or not an integer, github.py lines 82-88), the probe
body remaining count (github.py lines 293-294), or the read-only check
(github.py lines 94-98). -/
inductive RateEvent : Type where
  | observeHdr (hdr : Option Int) : RateEvent
  | probeBody (r : Option Int) : RateEvent
  | check : RateEvent

/-- One tracker operation.  observeHdr embeds _update_rate_limit
(github.py lines 80-92): a missing or unparsable header leaves the state
unchanged, otherwise the remaining count is stored and the exhausted
flag is set, never cleared, when it drops below the buffer.  probeBody
embeds the probe handling in run (github.py lines 293-299), which stores
the body count even when it is None and sets the flag when it is an
integer below the buffer.  check embeds _check_rate_limit, which reads
without writing. -/
def rateStep (s : RateState) : RateEvent → RateState
  | RateEvent.observeHdr none => s
  | RateEvent.observeHdr (some r) =>
      RateState.mk (some r) (s.exhausted || decide (r < GITHUB_RATE_LIMIT_BUFFER))
  | RateEvent.probeBody r =>
      RateState.mk r
        (s.exhausted ||
          match r with
          | some v => decide (v < GITHUB_RATE_LIMIT_BUFFER)
          | none => false)
  | RateEvent.check => s

/-! ### Participation sub-fetch -/

/-- A participation response body: the two weekly commit series, after
the coalescing .get(x) or [] of the caller (week counts are JSON
numbers, modelled as rationals). -/
structure PResp : Type where
  status : Nat
  allWeeks : List ℚ
  ownerWeeks : List ℚ
deriving Repr

/-- Outcome of one _get call (github.py lines 104-125): raised means
_check_rate_limit raised before the request was issued; failed means the
request was issued but returned None (transport error, or a 403 once
exhausted); resp is a returned response. -/
inductive GetOut : Type where
  | raised : GetOut
  | failed : GetOut
  | resp (r : PResp) : GetOut
deriving Repr

/-- Embeds _fetch_participation (github.py lines 153-172) against the
outcomes of its at most two _get calls.  Returns the sub-fetch result
(error () when _RateLimitExhausted propagates) paired with the number of
participation requests actually issued.  A 202 first response sleeps
briefly and retries exactly once; the retry must return 200 or the
sub-fetch yields None; a non-202, non-200 first response yields None
without a retry. -/
def fetchParticipation (g1 g2 : GetOut) : Except Unit (Option PResp) × Nat :=
  match g1 with
  | GetOut.raised => (Except.error (), 0)
  | GetOut.failed => (Except.ok none, 1)
  | GetOut.resp r =>
    if r.status = 202 then
      match g2 with
      | GetOut.raised => (Except.error (), 1)
      | GetOut.failed => (Except.ok none, 2)
      | GetOut.resp r2 =>
          (Except.ok (if r2.status = 200 then some r2 else none), 2)
    else if r.status = 200 then (Except.ok (some r), 1)
    else (Except.ok none, 1)

/-! ### Contributor estimate -/

/-- Embeds _estimate_contributors (github.py lines 345-389) over the two
weekly series. -/
def estimateContributors (allWeeks ownerWeeks : List ℚ) : Option Nat :=
  if allWeeks = [] then none
  else if ownerWeeks = [] ∨ ownerWeeks.length ≠ allWeeks.length then
    let active := allWeeks.countP (fun w => decide (0 < w))
    if 0 < active then some (max 1 (active / 10)) else none
  else
    let other := (allWeeks.zip ownerWeeks).countP (fun p => decide (p.2 < p.1))
    let totalActive := allWeeks.countP (fun w => decide (0 < w))
    if totalActive = 0 then none
    else if other = 0 then some 1
    else if 40 ≤ other then some 10
    else if 25 ≤ other then some 7
    else if 15 ≤ other then some 5
    else if 8 ≤ other then some 3
    else some 2

/-! ### Fetch worker -/

/-- Whether a JSON value is null (a Python None). -/
def isNullJson : JsonVal → Bool
  | JsonVal.null => true
  | _ => false

/-- Embeds _enrich_one (github.py lines 178-239).  The argument fetched
abstracts the asyncio.gather of the three sub-fetches: none models the
case where _RateLimitExhausted propagated out of the gather (the worker
returns an empty payload, lines 195-196); otherwise it carries the three
sub-results, each none when that sub-fetch failed.  Metadata and
community bodies are parsed JSON objects; the participation body carries
its two weekly series after the .get(x) or [] coalescing of lines 223 and
230.  The payload is the dict the worker builds, with keys in insertion
order. -/
def enrichOne (owner : List Char)
    (fetched : Option (Option JsonObj × Option JsonObj × Option PResp)) :
    Payload :=
  match fetched with
  | none => []
  | some (meta, community, participation) =>
    let d1 : Payload :=
      match meta with
      | none => []
      | some m =>
          [(("github_stars"), jget m ("stargazers_count")),
           (("github_forks"), jget m ("forks_count")),
           (("github_watchers"), jget m ("subscribers_count")),
           (("github_archived"), jget m ("archived")),
           (("github_license"),
             match jget m ("license") with
             | JsonVal.obj kvs => jget kvs ("spdx_id")
             | _ => JsonVal.null),
           (("github_created_at"), jget m ("created_at")),
           (("github_pushed_at"), jget m ("pushed_at")),
           (("github_owner"), JsonVal.str (String.mk owner))]
    let d2 : Payload :=
      match community with
      | none => d1
      | some c =>
          let files : JsonObj :=
            match jget c ("files") with
            | JsonVal.obj kvs => kvs
            | _ => []
          d1 ++
            [(("github_has_security_md"),
              JsonVal.bool (!(isNullJson (jget files ("security"))))),
             (("github_has_code_of_conduct"),
              JsonVal.bool (!(isNullJson (jget files ("code_of_conduct"))))),
             (("github_health_percentage"), jget c ("health_percentage"))]
    match participation with
    | some p =>
        if p.allWeeks = [] then
          d2 ++ [(("github_commit_weeks_active"), JsonVal.null),
                 (("github_contributors"), JsonVal.null)]
        else
          d2 ++
            [(("github_commit_weeks_active"),
              JsonVal.num (p.allWeeks.countP (fun w => decide (0 < w)) : ℚ)),
             (("github_contributors"),
              match estimateContributors p.allWeeks p.ownerWeeks with
              | some n => JsonVal.num (n : ℚ)
              | none => JsonVal.null)]
    | none =>
        d2 ++ [(("github_commit_weeks_active"), JsonVal.null),
               (("github_contributors"), JsonVal.null)]

/-! ### Enrichment orchestrator -/

/-- A catalog entry as the enricher sees it: its name key and its
optional repo_url (ServerEntry in collectors/registry.py). -/
structure Server : Type where
  name : String
  repoUrl : Option (List Char)

/-- A work item queued for fetching (github.py line 268). -/
structure WorkItem : Type where
  name : String
  owner : List Char
  repo : List Char

/-- Embeds the work-list construction of run (github.py lines 255-268):
skip entries with a falsy repo_url (None or empty), entries whose URL
does not match the locator regex, and entries with a fresh cache entry;
queue everything else. -/
def workOf (cache : CacheMap) (now : ℚ) (srv : Server) : Option WorkItem :=
  match srv.repoUrl with
  | none => none
  | some url =>
    if url = [] then none
    else
      match parseRepoUrl url with
      | none => none
      | some (o, r) =>
        match dlookup srv.name cache with
        | some e =>
            if isStale e now then some (WorkItem.mk srv.name o r) else none
        | none => some (WorkItem.mk srv.name o r)

def buildWork (servers : List Server) (cache : CacheMap) (now : ℚ) :
    List WorkItem :=
  servers.filterMap (workOf cache now)

/-- What the network does for one dispatched worker: the gather outcome
consumed by enrichOne, and whether any response header observed by this
worker drove the tracked remaining quota below the buffer (setting the
shared exhausted flag through _update_rate_limit). -/
structure WorkerNet : Type where
  fetched : Option (Option JsonObj × Option JsonObj × Option PResp)
  tripsExhaust : Bool

/-- Embeds the batch loop of run (github.py lines 309-328) against a
network oracle indexed by position in the work list.  Each iteration
stops before dispatching anything when the exhausted flag is set, and
otherwise dispatches one batch of at most GITHUB_CONCURRENT_REQUESTS
workers, inserts every nonempty payload into the results dict keyed by
name, and ORs the workers' header observations into the exhausted flag
before the next iteration.  Returns the results dict, the final flag,
and the number of workers dispatched. -/
def runBatches (net : Nat → WorkerNet) :
    List WorkItem → Nat → Bool → List (String × Payload) →
    List (String × Payload) × Bool × Nat
  | work, idx, exhausted, acc =>
    if exhausted then (acc, exhausted, 0)
    else if hw : work.isEmpty then (acc, exhausted, 0)
    else
      let batch := work.take GITHUB_CONCURRENT_REQUESTS
      let outs := batch.enum.map (fun p => (p.2, net (idx + p.1)))
      let acc2 := outs.foldl (fun a q =>
        let d := enrichOne q.1.owner q.2.fetched
        if d.isEmpty then a else dinsert a q.1.name d) acc
      let ex2 := outs.any (fun q => q.2.tripsExhaust)
      let rest := runBatches net (work.drop GITHUB_CONCURRENT_REQUESTS)
        (idx + batch.length) ex2 acc2
      (rest.1, rest.2.1, batch.length + rest.2.2)
termination_by work _ _ _ => work.length
decreasing_by
  have h1 : work ≠ [] := by simpa using hw
  have h2 : 0 < work.length := List.length_pos.mpr h1
  simp [List.length_drop, GITHUB_CONCURRENT_REQUESTS]
  omega

/-- The outcome of one run: the fresh results dict, whether the probe
request was issued, and how many per-repo workers were dispatched. -/
structure RunOut : Type where
  results : List (String × Payload)
  probed : Bool
  dispatched : Nat

/-- Whether the probe body count alone drives the exhausted flag
(github.py lines 295-299). -/
def probeExhausts (probeBody : Option Int) : Bool :=
  match probeBody with
  | some r => decide (r < GITHUB_RATE_LIMIT_BUFFER)
  | none => false

/-- Embeds GitHubEnricher.run (github.py lines 245-342) for a fresh
enricher (enrich constructs a new instance per run, so the exhausted
flag starts false).  When the work list is empty the function returns
before creating the HTTP client, so not even the probe is issued
(lines 273-275).  Otherwise the probe is issued once; probeBody is the
resources.core.remaining integer from a 200 probe body (none when the
probe failed, was non-200, or lacked the key, lines 291-294) and
probeTrips is whether the probe response header alone already set the
exhausted flag through _update_rate_limit inside _get. -/
def runModel (net : Nat → WorkerNet) (probeBody : Option Int)
    (probeTrips : Bool) (servers : List Server) (cache : CacheMap) (now : ℚ) :
    RunOut :=
  let work := buildWork servers cache now
  if work.isEmpty then RunOut.mk [] false 0
  else
    let z := runBatches net work 0 (probeTrips || probeExhausts probeBody) []
    RunOut.mk z.1 true z.2.2

/-- The outcome of enrich: the mapping returned to the caller, the
mapping persisted to disk, and the run outcome. -/
structure EnrichOut : Type where
  returned : List (String × Payload)
  saved : CacheMap
  runOut : RunOut

/-- Embeds enrich (github.py lines 421-454) once the cache file has been
loaded as a mapping: run the enricher over the cached state, merge the
fresh results with a uniform merge-time timestamp, persist the merged
mapping, and return it with private fields stripped.  The staleness
checks of the run and the merge timestamp both use the run instant
now. -/
def enrichModel (net : Nat → WorkerNet) (probeBody : Option Int)
    (probeTrips : Bool) (servers : List Server) (cache : CacheMap) (now : ℚ) :
    EnrichOut :=
  let r := runModel net probeBody probeTrips servers cache now
  let merged := mergeCache cache r.results now
  EnrichOut.mk (cleanMap merged) merged r

/-! ### Theorems.  Each claim of the specification is settled below; the
helper lemmas come first. -/

theorem rateStep_mono (s : RateState) (e : RateEvent)
    (hs : s.exhausted = true) : (rateStep s e).exhausted = true := by
  cases e with
  | observeHdr hdr => cases hdr <;> simp [rateStep, hs]
  | probeBody r => simp [rateStep, hs]
  | check => simpa [rateStep] using hs

/-- C9: within a single run the exhausted flag of the rate budget is
monotone: every tracker operation (header observation, probe-body
handling, read-only check) maps an exhausted state to an exhausted
state, and hence any sequence of operations keeps the flag set once it
is set; no operation returns it from Exhausted to Open. -/
theorem exhaustedMonotone :
    (∀ (s : RateState) (e : RateEvent), s.exhausted = true →
       (rateStep s e).exhausted = true) ∧
    (∀ (evs : List RateEvent) (s : RateState), s.exhausted = true →
       (evs.foldl rateStep s).exhausted = true) := by
  refine ⟨rateStep_mono, ?_⟩
  intro evs
  induction evs with
  | nil => intro s hs; simpa using hs
  | cons e t ih => intro s hs; exact ih _ (rateStep_mono s e hs)

theorem exhaustedMonotoneWitness :
    (([RateEvent.observeHdr (some 5000), RateEvent.check,
       RateEvent.probeBody none]).foldl rateStep
        (RateState.mk none true)).exhausted = true :=
  exhaustedMonotone.2 _ _ rfl

/-- C8: the participation sub-fetch issues at most two requests in every
execution; a 202 first response leads to exactly one retry (the retry
request is issued unless the rate budget aborts it first), and when that
retry fails, is aborted, or returns anything but 200, the sub-fetch
yields no data; a 200 retry yields its body. -/
theorem participationSingleRetry :
    (∀ g1 g2 : GetOut, (fetchParticipation g1 g2).2 ≤ 2) ∧
    (∀ (r : PResp) (g2 : GetOut), r.status = 202 →
      ((fetchParticipation (GetOut.resp r) g2).2 =
        (match g2 with | GetOut.raised => 1 | _ => 2)) ∧
      (g2 = GetOut.failed →
        (fetchParticipation (GetOut.resp r) g2).1 = Except.ok none) ∧
      (∀ r2, g2 = GetOut.resp r2 → r2.status ≠ 200 →
        (fetchParticipation (GetOut.resp r) g2).1 = Except.ok none) ∧
      (∀ r2, g2 = GetOut.resp r2 → r2.status = 200 →
        (fetchParticipation (GetOut.resp r) g2).1 = Except.ok (some r2))) := by
  constructor
  · intro g1 g2
    cases g1 with
    | raised => simp [fetchParticipation]
    | failed => simp [fetchParticipation]
    | resp r =>
        by_cases h202 : r.status = 202
        · cases g2 <;> simp [fetchParticipation, h202]
        · by_cases h200 : r.status = 200 <;>
            simp [fetchParticipation, h202, h200]
  · intro r g2 h202
    refine ⟨?_, ?_, ?_, ?_⟩
    · cases g2 <;> simp [fetchParticipation, h202]
    · intro hg2; subst hg2; simp [fetchParticipation, h202]
    · intro r2 hg2 hne; subst hg2; simp [fetchParticipation, h202, hne]
    · intro r2 hg2 h200; subst hg2; simp [fetchParticipation, h202, h200]

theorem participationSingleRetryWitness :
    (fetchParticipation (GetOut.resp (PResp.mk 202 [] [])) GetOut.failed).2 = 2 ∧
    (fetchParticipation (GetOut.resp (PResp.mk 202 [] []))
        GetOut.failed).1 = Except.ok none :=
  ⟨(participationSingleRetry.2 (PResp.mk 202 [] []) GetOut.failed rfl).1,
   (participationSingleRetry.2 (PResp.mk 202 [] []) GetOut.failed rfl).2.1 rfl⟩

/-- C6 counterexample: a cache file holding valid JSON of a non-object
shape, here the JSON array [], is returned unchanged by the load, not
replaced by an empty mapping. -/
theorem loadShapeCounterexample :
    loadCache (CacheFile.parsed (JsonVal.arr [])) = JsonVal.arr [] ∧
    isObjJson (loadCache (CacheFile.parsed (JsonVal.arr []))) = false :=
  ⟨rfl, rfl⟩

/-- C6 amended: the load never raises, and an absent file, an unreadable
file, and a file that fails to parse as JSON each yield the empty
mapping; but a file that parses to valid JSON is returned exactly as
parsed, even when its shape is not an object. -/
theorem loadCacheAmended :
    loadCache CacheFile.absent = JsonVal.obj [] ∧
    loadCache CacheFile.unreadable = JsonVal.obj [] ∧
    loadCache CacheFile.invalidJson = JsonVal.obj [] ∧
    ∀ v : JsonVal, loadCache (CacheFile.parsed v) = v :=
  ⟨rfl, rfl, rfl, fun v => rfl⟩

theorem loadCacheAmendedWitness :
    loadCache (CacheFile.parsed (JsonVal.num 3)) = JsonVal.num 3 :=
  loadCacheAmended.2.2.2 (JsonVal.num 3)

/-- C2 counterexample: with prior contents x and new serialized contents
yz, the truncate-then-write of _save_cache exposes the empty truncated
file, which is neither the old nor the new contents, so the save is not
an atomic replacement relative to reader observation. -/
theorem saveNotAtomicCounterexample :
    ¬ atomicReplacement (['x']) (['y', 'z'])
        (saveObservable (['x']) (['y', 'z'])) := by
  intro h
  have hm : ([] : List Char) ∈ saveObservable (['x']) (['y', 'z']) := by
    simp [saveObservable]
  rcases h [] hm with h1 | h1 <;> simp at h1

/-- C2 amended: _save_cache persists the full mapping by truncating and
rewriting the cache file in place rather than by write-then-rename: the
full new contents is among the observable states (the write completes),
but so is the empty truncated file, so whenever the old and new contents
are both nonempty a concurrent reader can observe a state that is
neither, and the replacement is not atomic relative to reader
observation. -/
theorem saveTruncateWriteAmended (old new : List Char) :
    new ∈ saveObservable old new ∧
    [] ∈ saveObservable old new ∧
    (old ≠ [] → new ≠ [] →
      ¬ atomicReplacement old new (saveObservable old new)) := by
  refine ⟨?_, ?_, ?_⟩
  · refine List.mem_cons_of_mem _ (List.mem_map.mpr ⟨new.length, ?_, ?_⟩)
    · exact List.mem_range.mpr (Nat.lt_succ_self _)
    · exact List.take_length new
  · refine List.mem_cons_of_mem _ (List.mem_map.mpr ⟨0, ?_, ?_⟩)
    · exact List.mem_range.mpr (Nat.succ_pos _)
    · rfl
  · intro hold hnew hat
    have hm : ([] : List Char) ∈ saveObservable old new := by
      refine List.mem_cons_of_mem _ (List.mem_map.mpr ⟨0, ?_, rfl⟩)
      exact List.mem_range.mpr (Nat.succ_pos _)
    rcases hat [] hm with h1 | h1
    · exact hold h1.symm
    · exact hnew h1.symm

theorem saveTruncateWriteWitness :
    ¬ atomicReplacement (['x']) (['y'])
        (saveObservable (['x']) (['y'])) :=
  (saveTruncateWriteAmended (['x']) (['y'])).2.2
    (by decide) (by decide)

/-- The total tier mapping described by the specification for the
equal-length branch of the contributor estimate, completed on the counts
one to seven, which the code maps to two. -/
def specTier (other : Nat) : Nat :=
  if other = 0 then 1
  else if 40 ≤ other then 10
  else if 25 ≤ other then 7
  else if 15 ≤ other then 5
  else if 8 ≤ other then 3
  else 2

/-- C3 counterexample: a nonempty all-zero total series with an
equal-length owner series has zero other-contributor weeks, so the
claimed tier mapping yields one contributor, but the code returns
unknown because no week is active at all. -/
theorem estimateAllZeroCounterexample :
    estimateContributors ([(0 : ℚ)]) ([(0 : ℚ)]) = none ∧
    estimateContributors ([(0 : ℚ)]) ([(0 : ℚ)]) ≠ some 1 := by
  have h0 : estimateContributors ([(0 : ℚ)]) ([(0 : ℚ)]) = none := rfl
  refine ⟨h0, ?_⟩
  rw [h0]
  simp

/-- C3 amended: for a nonempty total series, when the owner series is
nonempty and of the same length the estimate is the tier mapping of the
other-contributor week count (zero gives one, one to seven give two,
at least 8 give 3, at least 15 give 5, at least 25 give 7, at least 40
give 10), provided at least one week is active; when no week is active
the estimate is unknown even in that branch.  When the owner series is
empty or the lengths mismatch, the estimate is max 1 (activeWeeks / 10)
if any week is active and unknown otherwise. -/
theorem estimateContributorsAmended (allW ownerW : List ℚ) (hne : allW ≠ []) :
    (ownerW ≠ [] → ownerW.length = allW.length →
      ((allW.countP (fun w => decide (0 < w)) = 0 →
          estimateContributors allW ownerW = none) ∧
       (allW.countP (fun w => decide (0 < w)) ≠ 0 →
          estimateContributors allW ownerW =
            some (specTier
              ((allW.zip ownerW).countP (fun p => decide (p.2 < p.1))))))) ∧
    ((ownerW = [] ∨ ownerW.length ≠ allW.length) →
      ((allW.countP (fun w => decide (0 < w)) = 0 →
          estimateContributors allW ownerW = none) ∧
       (allW.countP (fun w => decide (0 < w)) ≠ 0 →
          estimateContributors allW ownerW =
            some (max 1 (allW.countP (fun w => decide (0 < w)) / 10))))) := by
  constructor
  · intro how hlen
    have hcond : ¬ (ownerW = [] ∨ ownerW.length ≠ allW.length) := by
      push_neg
      exact ⟨how, hlen⟩
    constructor
    · intro hact
      simp [estimateContributors, hne, hcond, hact]
    · intro hact
      simp only [estimateContributors, if_neg hne, if_neg hcond, specTier]
      rw [if_neg hact]
      split_ifs <;> rfl
  · intro hcond
    constructor
    · intro hact
      simp [estimateContributors, hne, hcond, hact]
    · intro hact
      have hpos : 0 < allW.countP (fun w => decide (0 < w)) :=
        Nat.pos_of_ne_zero hact
      simp [estimateContributors, hne, hcond, hpos]

theorem estimateContributorsWitness :
    estimateContributors ([(1 : ℚ)]) ([(0 : ℚ)]) = some (specTier 1) :=
  ((estimateContributorsAmended ([(1 : ℚ)]) ([(0 : ℚ)])
      (by decide)).1 (by decide) (by decide)).2 (by decide)

theorem dlookup_eq_none {α : Type} (l : List (String × α)) (k : String)
    (h : k ∉ l.map Prod.fst) : dlookup k l = none := by
  induction l with
  | nil => rfl
  | cons hd t ih =>
      simp only [List.map_cons, List.mem_cons] at h
      push_neg at h
      have h1 : ¬ hd.1 = k := fun e => h.1 e.symm
      simp [dlookup, h1, ih h.2]

/-- C4: merging fresh results into the cache gives every fresh key its
fresh payload stamped with the uniform merge-time timestamp, leaves
every other cache entry unchanged, and never deletes an existing
entry. -/
theorem mergePreservesEntries (C : CacheMap) (F : List (String × Payload))
    (now : ℚ) (hnd : (F.map Prod.fst).Nodup) (k : String) :
    (∀ d, dlookup k F = some d →
       dlookup k (mergeCache C F now) = some (CacheEntry.mk d (some now))) ∧
    (dlookup k F = none → dlookup k (mergeCache C F now) = dlookup k C) ∧
    (∀ e, dlookup k C = some e →
       ∃ e2, dlookup k (mergeCache C F now) = some e2) := by
  induction F generalizing C with
  | nil =>
      refine ⟨?_, ?_, ?_⟩
      · intro d hd; simp [dlookup] at hd
      · intro _; rfl
      · intro e he; exact ⟨e, he⟩
  | cons hd t ih =>
      obtain ⟨k1, d1⟩ := hd
      simp only [List.map_cons, List.nodup_cons] at hnd
      have hk1 : k1 ∉ t.map Prod.fst := hnd.1
      have hnd2 : (t.map Prod.fst).Nodup := hnd.2
      have hmerge :
          mergeCache C ((k1, d1) :: t) now =
            mergeCache (dinsert C k1 (CacheEntry.mk d1 (some now))) t now := rfl
      by_cases hk : k1 = k
      · subst hk
        refine ⟨?_, ?_, ?_⟩
        · intro d hd
          simp only [dlookup, if_pos rfl] at hd
          rw [hmerge,
            (ih _ hnd2).2.1 (dlookup_eq_none _ _ hk1),
            dlookup_dinsert_self]
          rw [← Option.some_inj.mp hd]
        · intro hno
          simp [dlookup] at hno
        · intro e he
          refine ⟨CacheEntry.mk d1 (some now), ?_⟩
          rw [hmerge, (ih _ hnd2).2.1 (dlookup_eq_none _ _ hk1),
            dlookup_dinsert_self]
      · refine ⟨?_, ?_, ?_⟩
        · intro d hd
          have hd2 : dlookup k t = some d := by
            simpa [dlookup, hk] using hd
          rw [hmerge]
          exact (ih _ hnd2).1 d hd2
        · intro hno
          have hno2 : dlookup k t = none := by
            simpa [dlookup, hk] using hno
          rw [hmerge, (ih _ hnd2).2.1 hno2,
            dlookup_dinsert_ne _ _ _ _ (fun e => hk e.symm)]
        · intro e he
          cases hcase : dlookup k t with
          | some d =>
              refine ⟨CacheEntry.mk d (some now), ?_⟩
              rw [hmerge]
              exact (ih _ hnd2).1 d hcase
          | none =>
              refine ⟨e, ?_⟩
              rw [hmerge, (ih _ hnd2).2.1 hcase,
                dlookup_dinsert_ne _ _ _ _ (fun e2 => hk e2.symm)]
              exact he

theorem mergePreservesEntriesWitness :
    dlookup ("b")
        (mergeCache ([(("a"), CacheEntry.mk [] (some 1))])
          ([(("b"), ([] : Payload))]) 5) =
      some (CacheEntry.mk [] (some 5)) :=
  (mergePreservesEntries ([(("a"), CacheEntry.mk [] (some 1))])
      ([(("b"), ([] : Payload))]) 5 (by simp) ("b")).1 [] rfl

theorem runBatches_exhausted (net : Nat → WorkerNet) (work : List WorkItem)
    (idx : Nat) (acc : List (String × Payload)) :
    runBatches net work idx true acc = (acc, true, 0) := by
  rw [runBatches]
  simp

theorem runBatches_nil (net : Nat → WorkerNet) (idx : Nat) (ex : Bool)
    (acc : List (String × Payload)) :
    runBatches net [] idx ex acc = (acc, ex, 0) := by
  rw [runBatches]
  cases ex <;> simp

/-- C5: when the probe body reports a remaining quota below the buffer,
the run dispatches zero per-repo workers, returns zero fresh results,
and enrich hands the caller the input cache merged with nothing: the
persisted mapping is the input cache and the returned mapping is its
cleaned view. -/
theorem probeExhaustedHalts (net : Nat → WorkerNet) (probeTrips : Bool)
    (servers : List Server) (cache : CacheMap) (now : ℚ) (r : Int)
    (hr : r < GITHUB_RATE_LIMIT_BUFFER) :
    (runModel net (some r) probeTrips servers cache now).results = [] ∧
    (runModel net (some r) probeTrips servers cache now).dispatched = 0 ∧
    enrichModel net (some r) probeTrips servers cache now =
      EnrichOut.mk (cleanMap cache) cache
        (runModel net (some r) probeTrips servers cache now) := by
  have hdec : decide (r < GITHUB_RATE_LIMIT_BUFFER) = true := decide_eq_true hr
  have hrun : (runModel net (some r) probeTrips servers cache now).results = [] ∧
      (runModel net (some r) probeTrips servers cache now).dispatched = 0 := by
    by_cases hempty : (buildWork servers cache now).isEmpty
    · simp [runModel, hempty]
    · simp [runModel, hempty, probeExhausts, hdec, runBatches_exhausted]
  refine ⟨hrun.1, hrun.2, ?_⟩
  show EnrichOut.mk
      (cleanMap (mergeCache cache
        (runModel net (some r) probeTrips servers cache now).results now))
      (mergeCache cache
        (runModel net (some r) probeTrips servers cache now).results now)
      (runModel net (some r) probeTrips servers cache now) = _
  rw [hrun.1]
  rfl

theorem probeExhaustedHaltsWitness :
    (runModel (fun _ => WorkerNet.mk none false) (some 0) false
        ([Server.mk ("s") (some (ghBase ++ ['a', '/', 'b']))]) [] 0).results =
      [] ∧
    (runModel (fun _ => WorkerNet.mk none false) (some 0) false
        ([Server.mk ("s") (some (ghBase ++ ['a', '/', 'b']))]) [] 0).dispatched =
      0 ∧
    enrichModel (fun _ => WorkerNet.mk none false) (some 0) false
        ([Server.mk ("s") (some (ghBase ++ ['a', '/', 'b']))]) [] 0 =
      EnrichOut.mk (cleanMap []) []
        (runModel (fun _ => WorkerNet.mk none false) (some 0) false
          ([Server.mk ("s") (some (ghBase ++ ['a', '/', 'b']))]) [] 0) :=
  probeExhaustedHalts (fun _ => WorkerNet.mk none false) false
    ([Server.mk ("s") (some (ghBase ++ ['a', '/', 'b']))]) [] 0 0 (by decide)

theorem buildWork_eq_nil (servers : List Server) (cache : CacheMap) (now : ℚ)
    (hfresh : ∀ srv ∈ servers, ∀ url, srv.repoUrl = some url → url ≠ [] →
       ∀ p, parseRepoUrl url = some p →
         ∃ e, dlookup srv.name cache = some e ∧ isStale e now = false) :
    buildWork servers cache now = [] := by
  induction servers with
  | nil => rfl
  | cons s t ih =>
      have hrest : buildWork t cache now = [] :=
        ih (fun srv hs => hfresh srv (List.mem_cons_of_mem _ hs))
      have hhead : workOf cache now s = none := by
        cases hurl : s.repoUrl with
        | none => simp [workOf, hurl]
        | some url =>
            by_cases hnil : url = []
            · simp [workOf, hurl, hnil]
            · cases hp : parseRepoUrl url with
              | none => simp [workOf, hurl, hnil, hp]
              | some pr =>
                  obtain ⟨e, he, hst⟩ :=
                    hfresh s (List.mem_cons_self _ _) url hurl hnil pr hp
                  simp [workOf, hurl, hnil, hp, he, hst]
      show List.filterMap (workOf cache now) (s :: t) = []
      rw [List.filterMap_cons, hhead]
      exact hrest

/-- C7: when every entry of the server list that resolves to a locator
has a fresh cache entry in the mapping the previous run persisted, the
second run with no time elapsed builds an empty work list, issues no
network call at all (not even the probe) and dispatches no worker, and
enrich returns exactly the mapping the previous run returned while
persisting the same cache again. -/
theorem secondRunIdempotent (net1 net2 : Nat → WorkerNet)
    (pb1 pb2 : Option Int) (pt1 pt2 : Bool) (servers : List Server)
    (disk : CacheMap) (now : ℚ)
    (hfresh : ∀ srv ∈ servers, ∀ url, srv.repoUrl = some url → url ≠ [] →
       ∀ p, parseRepoUrl url = some p →
         ∃ e, dlookup srv.name
                (enrichModel net1 pb1 pt1 servers disk now).saved = some e ∧
              isStale e now = false) :
    runModel net2 pb2 pt2 servers
        (enrichModel net1 pb1 pt1 servers disk now).saved now =
      RunOut.mk [] false 0 ∧
    enrichModel net2 pb2 pt2 servers
        (enrichModel net1 pb1 pt1 servers disk now).saved now =
      EnrichOut.mk (enrichModel net1 pb1 pt1 servers disk now).returned
        (enrichModel net1 pb1 pt1 servers disk now).saved
        (RunOut.mk [] false 0) := by
  have hw : buildWork servers
      (enrichModel net1 pb1 pt1 servers disk now).saved now = [] :=
    buildWork_eq_nil _ _ _ hfresh
  have hrun : runModel net2 pb2 pt2 servers
      (enrichModel net1 pb1 pt1 servers disk now).saved now =
      RunOut.mk [] false 0 := by
    simp [runModel, hw]
  refine ⟨hrun, ?_⟩
  show EnrichOut.mk _ _ _ = _
  rw [hrun]
  rfl

theorem runBatches_one (net : Nat → WorkerNet) (w : WorkItem) (idx : Nat)
    (acc : List (String × Payload)) :
    runBatches net [w] idx false acc =
      (if (enrichOne w.owner (net idx).fetched).isEmpty then acc
       else dinsert acc w.name (enrichOne w.owner (net idx).fetched),
       (net idx).tripsExhaust, 1) := by
  rw [runBatches]
  simp [GITHUB_CONCURRENT_REQUESTS, List.enum, runBatches_nil]

/-- The payload a worker returns when all three of its sub-fetches fail
without the rate budget aborting the gather: only the two activity
fields, both null. -/
def nullActivityPay : Payload :=
  [(("github_commit_weeks_active"), JsonVal.null),
   (("github_contributors"), JsonVal.null)]

/-- A network in which every worker's three sub-fetches all fail. -/
def allFailNet : Nat → WorkerNet :=
  fun _ => WorkerNet.mk (some (none, none, none)) false

/-- One server with a well-formed GitHub repo URL. -/
def soloServer : List Server :=
  [Server.mk ("s") (some (ghBase ++ ['a', '/', 'b']))]

theorem runModel_allFail_eval :
    runModel allFailNet (some 5000) false soloServer [] 0 =
      RunOut.mk [(("s"), nullActivityPay)] true 1 := by
  have hwork : buildWork soloServer [] 0 =
      [WorkItem.mk ("s") (['a']) (['b'])] := rfl
  have hpay : enrichOne (['a']) (allFailNet 0).fetched = nullActivityPay := rfl
  show (if (buildWork soloServer [] 0).isEmpty then RunOut.mk [] false 0
    else
      let z := runBatches allFailNet (buildWork soloServer [] 0) 0
        (false || probeExhausts (some 5000)) []
      RunOut.mk z.1 true z.2.2) = _
  rw [hwork]
  simp only [List.isEmpty_cons, if_false, Bool.false_or]
  rw [show probeExhausts (some 5000) = false from rfl, runBatches_one, hpay]
  rfl

/-- C1 counterexample: in a run where the only work item's three
sub-fetches all fail (every provider call errors), the worker's payload
is not empty but carries the two explicit null activity fields; it is
inserted into the fresh results, written to the cache with the merge
timestamp, and the resulting entry is not stale, so a later run inside
the max age will not retry it. -/
theorem emptyPayloadClaimFalse :
    (runModel allFailNet (some 5000) false soloServer [] 0).results =
      [(("s"), nullActivityPay)] ∧
    dlookup ("s")
        (enrichModel allFailNet (some 5000) false soloServer [] 0).saved =
      some (CacheEntry.mk nullActivityPay (some 0)) ∧
    isStale (CacheEntry.mk nullActivityPay (some 0)) 0 = false := by
  have h := runModel_allFail_eval
  have hstale : isStale (CacheEntry.mk nullActivityPay (some 0)) 0 = false := by
    apply decide_eq_false
    norm_num [GITHUB_CACHE_MAX_AGE_DAYS]
  refine ⟨by rw [h], ?_, hstale⟩
  show dlookup ("s")
      (mergeCache []
        (runModel allFailNet (some 5000) false soloServer [] 0).results 0) = _
  rw [h]
  rfl

theorem foldl_ins_no_empty (outs : List (WorkItem × WorkerNet))
    (acc : List (String × Payload))
    (hacc : ∀ q ∈ acc, q.2.isEmpty = false) :
    ∀ q ∈ outs.foldl (fun a q2 =>
        let d := enrichOne q2.1.owner q2.2.fetched
        if d.isEmpty then a else dinsert a q2.1.name d) acc,
      q.2.isEmpty = false := by
  induction outs generalizing acc with
  | nil => exact hacc
  | cons o t ih =>
      simp only [List.foldl_cons]
      refine ih _ ?_
      intro q2 hq2
      by_cases hd : (enrichOne o.1.owner o.2.fetched).isEmpty = true
      · rw [if_pos hd] at hq2
        exact hacc q2 hq2
      · rw [if_neg hd] at hq2
        rcases mem_dinsert _ _ _ _ hq2 with h2 | h2
        · rw [h2]
          exact Bool.not_eq_true _ |>.mp hd
        · exact hacc q2 h2

theorem runBatches_no_empty (net : Nat → WorkerNet) :
    ∀ (n : Nat) (work : List WorkItem) (idx : Nat) (ex : Bool)
      (acc : List (String × Payload)), work.length ≤ n →
      (∀ q ∈ acc, q.2.isEmpty = false) →
      ∀ q ∈ (runBatches net work idx ex acc).1, q.2.isEmpty = false := by
  intro n
  induction n with
  | zero =>
      intro work idx ex acc hlen hacc
      have hw : work = [] := List.length_eq_zero.mp (Nat.le_zero.mp hlen)
      subst hw
      cases ex with
      | true => rw [runBatches_exhausted]; exact hacc
      | false => rw [runBatches_nil]; exact hacc
  | succ n ih =>
      intro work idx ex acc hlen hacc
      cases ex with
      | true => rw [runBatches_exhausted]; exact hacc
      | false =>
          cases hwork : work with
          | nil => rw [runBatches_nil]; exact hacc
          | cons w t =>
              rw [runBatches]
              simp only [List.isEmpty_cons, Bool.false_eq_true, if_false,
                dite_false]
              intro q hq
              subst hwork
              refine ih _ _ _ _ ?_ ?_ q hq
              · simp only [List.length_drop, List.length_cons,
                  GITHUB_CONCURRENT_REQUESTS] at hlen ⊢
                omega
              · exact foldl_ins_no_empty _ _ hacc

/-- C1 amended: in every run, a work item whose worker produced an
entirely empty payload is never inserted into the fresh results (every
recorded fresh payload is nonempty); but the only worker outcome that
yields an entirely empty payload is the rate-budget abort of the gather,
while three failed sub-fetches yield the two explicit null activity
fields, a nonempty payload that is inserted and cached. -/
theorem emptyPayloadSkippedAmended :
    (∀ (net : Nat → WorkerNet) (pb : Option Int) (pt : Bool)
       (servers : List Server) (cache : CacheMap) (now : ℚ),
       (runModel net pb pt servers cache now).results.all
         (fun q => !q.2.isEmpty) = true) ∧
    (∀ ow : List Char, enrichOne ow none = []) ∧
    (∀ ow : List Char,
       enrichOne ow (some (none, none, none)) = nullActivityPay) := by
  refine ⟨?_, fun ow => rfl, fun ow => rfl⟩
  intro net pb pt servers cache now
  rw [List.all_eq_true]
  intro q hq
  suffices h : q.2.isEmpty = false by simp [h]
  by_cases hempty : (buildWork servers cache now).isEmpty
  · rw [show runModel net pb pt servers cache now = RunOut.mk [] false 0 from
      by simp [runModel, hempty]] at hq
    simp at hq
  · have hq2 : q ∈ (runBatches net (buildWork servers cache now) 0
        (pt || probeExhausts pb) []).1 := by
      simpa [runModel, hempty] using hq
    exact runBatches_no_empty net (buildWork servers cache now).length _ 0 _ []
      le_rfl (by simp) q hq2

theorem emptyPayloadSkippedWitness :
    (runModel allFailNet (some 5000) false soloServer [] 0).results.all
      (fun q => !q.2.isEmpty) = true :=
  emptyPayloadSkippedAmended.1 allFailNet (some 5000) false soloServer [] 0

theorem secondRunIdempotentWitness :
    runModel allFailNet (some 4000) false soloServer
        (enrichModel allFailNet (some 5000) false soloServer [] 0).saved 0 =
      RunOut.mk [] false 0 ∧
    enrichModel allFailNet (some 4000) false soloServer
        (enrichModel allFailNet (some 5000) false soloServer [] 0).saved 0 =
      EnrichOut.mk (enrichModel allFailNet (some 5000) false soloServer [] 0).returned
        (enrichModel allFailNet (some 5000) false soloServer [] 0).saved
        (RunOut.mk [] false 0) := by
  refine secondRunIdempotent allFailNet allFailNet (some 5000) (some 4000)
    false false soloServer [] 0 ?_
  have hsaved : (enrichModel allFailNet (some 5000) false soloServer [] 0).saved =
      [(("s"), CacheEntry.mk nullActivityPay (some 0))] := by
    show mergeCache []
        (runModel allFailNet (some 5000) false soloServer [] 0).results 0 = _
    rw [runModel_allFail_eval]
    rfl
  intro srv hsrv url hurl hne p hp
  simp only [soloServer, List.mem_singleton] at hsrv
  subst hsrv
  refine ⟨CacheEntry.mk nullActivityPay (some 0), ?_, ?_⟩
  · rw [hsaved]
    rfl
  · apply decide_eq_false
    norm_num [GITHUB_CACHE_MAX_AGE_DAYS]

theorem chompPre_eq_some (p : List Char) :
    ∀ (s t : List Char), chompPre p s = some t ↔ s = p ++ t := by
  induction p with
  | nil =>
      intro s t
      simp [chompPre]
  | cons c p ih =>
      intro s t
      cases s with
      | nil => simp [chompPre]
      | cons a as =>
          by_cases hac : a = c
          · subst hac
            simp [chompPre, ih]
          · simp [chompPre, hac]

theorem dropOptSuf_append (suf u : List Char) :
    dropOptSuf suf (u ++ suf) = u := by
  unfold dropOptSuf
  rw [show chompPre suf.reverse (u ++ suf).reverse = some u.reverse from
    (chompPre_eq_some _ _ _).mpr (by simp)]
  simp

theorem dropOptSuf_of_not_suffix (suf s : List Char)
    (h : ∀ u, s ≠ u ++ suf) : dropOptSuf suf s = s := by
  unfold dropOptSuf
  cases hc : chompPre suf.reverse s.reverse with
  | none => rfl
  | some u =>
      exfalso
      have h2 := (chompPre_eq_some _ _ _).mp hc
      apply h u.reverse
      have h3 := congrArg List.reverse h2
      simpa using h3

theorem dropWhileWs_eq_self (s : List Char)
    (h : ∀ c, s.head? = some c → pyIsSpace c = false) :
    s.dropWhile pyIsSpace = s := by
  cases s with
  | nil => rfl
  | cons c t => simp [List.dropWhile_cons, h c rfl]

theorem stripWs_eq_self (s : List Char)
    (h1 : ∀ c, s.head? = some c → pyIsSpace c = false)
    (h2 : ∀ c, s.reverse.head? = some c → pyIsSpace c = false) :
    stripWs s = s := by
  unfold stripWs
  rw [dropWhileWs_eq_self s h1, dropWhileWs_eq_self s.reverse h2,
    List.reverse_reverse]

theorem splitSeg_append (o r : List Char) (ho : '/' ∉ o) :
    splitSeg (o ++ '/' :: r) = some (o, r) := by
  induction o with
  | nil => simp [splitSeg]
  | cons c t ih =>
      simp only [List.mem_cons, not_or] at ho
      have hc : ¬ c = '/' := fun e => ho.1 e.symm
      have ht : '/' ∉ t := ho.2
      simp [splitSeg, hc, ih ht]

theorem segOk_false_of_dot (s : List Char) (h : '.' ∈ s) : segOk s = false := by
  have hall : s.all (fun c => !(c = '.') && !(c = '/')) = false :=
    List.all_eq_false.mpr ⟨'.', h, by simp⟩
  simp [segOk, hall]

theorem segOk_false_of_slash (s : List Char) (h : '/' ∈ s) :
    segOk s = false := by
  have hall : s.all (fun c => !(c = '.') && !(c = '/')) = false :=
    List.all_eq_false.mpr ⟨'/', h, by simp⟩
  simp [segOk, hall]

theorem dropGit_segOk_false (r : List Char) (hdot : '.' ∈ r)
    (hgit : ∀ core, r = core ++ ['.', 'g', 'i', 't'] → core = [] ∨ '.' ∈ core) :
    segOk (dropOptSuf (['.', 'g', 'i', 't']) r) = false := by
  rcases Classical.em (∃ core, r = core ++ (['.', 'g', 'i', 't'])) with
    ⟨core, hcore⟩ | hno
  · have h2 : dropOptSuf (['.', 'g', 'i', 't']) r = core := by
      rw [hcore]
      exact dropOptSuf_append _ _
    rw [h2]
    rcases hgit core hcore with hc | hc
    · rw [hc]
      rfl
    · exact segOk_false_of_dot _ hc
  · have h2 : dropOptSuf (['.', 'g', 'i', 't']) r = r := by
      apply dropOptSuf_of_not_suffix
      intro u hu
      exact hno ⟨u, hu⟩
    rw [h2]
    exact segOk_false_of_dot _ hdot

theorem matchRepoPart_dot (r : List Char) (hslash : '/' ∉ r) (hdot : '.' ∈ r)
    (hgit : ∀ core, r = core ++ ['.', 'g', 'i', 't'] → core = [] ∨ '.' ∈ core) :
    matchRepoPart r = none := by
  have h1 : dropOptSuf (['/']) r = r := by
    apply dropOptSuf_of_not_suffix
    intro u hu
    apply hslash
    rw [hu]
    exact List.mem_append_right _ (List.mem_cons_self _ _)
  simp [matchRepoPart, h1, dropGit_segOk_false r hdot hgit]

theorem matchRepoPart_dot_slash (r : List Char) (hdot : '.' ∈ r)
    (hgit : ∀ core, r = core ++ ['.', 'g', 'i', 't'] → core = [] ∨ '.' ∈ core) :
    matchRepoPart (r ++ ['/']) = none := by
  have h1 : dropOptSuf (['/']) (r ++ ['/']) = r := dropOptSuf_append _ _
  simp [matchRepoPart, h1, dropGit_segOk_false r hdot hgit]

theorem slash_mem_dropSlash (rr tt : List Char) (ht : tt ≠ []) :
    '/' ∈ dropOptSuf (['/']) (rr ++ '/' :: tt) := by
  obtain ⟨c0, t0, hr⟩ : ∃ c0 t0, tt.reverse = c0 :: t0 := by
    cases hrv : tt.reverse with
    | nil => exact absurd (by simpa using congrArg List.reverse hrv) ht
    | cons c0 t0 => exact ⟨c0, t0, rfl⟩
  cases hc : chompPre ((['/'] : List Char).reverse) (rr ++ '/' :: tt).reverse with
  | none =>
      unfold dropOptSuf
      rw [hc]
      exact List.mem_append_right _ (List.mem_cons_self _ _)
  | some u =>
      unfold dropOptSuf
      rw [hc]
      have h2 := (chompPre_eq_some _ _ _).mp hc
      have h3 : (rr ++ '/' :: tt).reverse = c0 :: (t0 ++ '/' :: rr.reverse) := by
        simp [List.reverse_append, List.reverse_cons, hr]
      rw [h3] at h2
      have h4 : u = t0 ++ '/' :: rr.reverse := by
        have h5 := h2
        simp at h5
        exact h5.2.symm
      rw [List.mem_reverse, h4]
      exact List.mem_append_right _ (List.mem_cons_self _ _)

theorem matchRepoPart_extra_seg (rr tt : List Char) (ht : tt ≠ []) :
    matchRepoPart (rr ++ '/' :: tt) = none := by
  have h1 : '/' ∈ dropOptSuf (['/']) (rr ++ '/' :: tt) :=
    slash_mem_dropSlash rr tt ht
  have h2 : '/' ∈ dropOptSuf (['.', 'g', 'i', 't'])
      (dropOptSuf (['/']) (rr ++ '/' :: tt)) := by
    set s1 := dropOptSuf (['/']) (rr ++ '/' :: tt) with hs1def
    cases hc : chompPre ((['.', 'g', 'i', 't'] : List Char).reverse)
        s1.reverse with
    | none =>
        rw [show dropOptSuf (['.', 'g', 'i', 't']) s1 = s1 from by
          unfold dropOptSuf
          rw [hc]]
        exact h1
    | some u =>
        rw [show dropOptSuf (['.', 'g', 'i', 't']) s1 = u.reverse from by
          unfold dropOptSuf
          rw [hc]]
        have hdec := (chompPre_eq_some _ _ _).mp hc
        have hs1 : s1 = u.reverse ++ (['.', 'g', 'i', 't']) := by
          have h3 := congrArg List.reverse hdec
          simpa using h3
        rw [hs1] at h1
        rcases List.mem_append.mp h1 with h4 | h4
        · exact h4
        · simp at h4
  exact (by simp [matchRepoPart, segOk_false_of_slash _ h2])

theorem stripWs_gh (o rest : List Char)
    (hrest : ∀ c ∈ rest, pyIsSpace c = false) (hrne : rest ≠ []) :
    stripWs (ghBase ++ (o ++ '/' :: rest)) = ghBase ++ (o ++ '/' :: rest) := by
  apply stripWs_eq_self
  · intro c hc
    have hh : (ghBase ++ (o ++ '/' :: rest)).head? = some 'h' := rfl
    rw [hh] at hc
    rw [show c = 'h' from (Option.some_inj.mp hc).symm]
    decide
  · intro c hc
    obtain ⟨c0, t0, hr⟩ : ∃ c0 t0, rest.reverse = c0 :: t0 := by
      cases hrv : rest.reverse with
      | nil => exact absurd (by simpa using congrArg List.reverse hrv) hrne
      | cons c0 t0 => exact ⟨c0, t0, rfl⟩
    have hh : (ghBase ++ (o ++ '/' :: rest)).reverse.head? = some c0 := by
      simp [List.reverse_append, List.reverse_cons, hr]
    rw [hh] at hc
    have hcc : c = c0 := (Option.some_inj.mp hc).symm
    have hc0 : c0 ∈ rest := by
      rw [← List.mem_reverse, hr]
      exact List.mem_cons_self _ _
    rw [hcc]
    exact hrest c0 hc0

theorem parseRepoUrl_none_of_bad_tail (o rest : List Char) (ho : o ≠ [])
    (hos : '/' ∉ o) (hmr : matchRepoPart rest = none)
    (hrest : ∀ c ∈ rest, pyIsSpace c = false) (hrne : rest ≠ []) :
    parseRepoUrl (ghBase ++ (o ++ '/' :: rest)) = none := by
  unfold parseRepoUrl
  simp only [stripWs_gh o rest hrest hrne,
    show chompSchemeHost (ghBase ++ (o ++ '/' :: rest)) =
      some (o ++ '/' :: rest) from rfl,
    splitSeg_append o rest hos]
  simp [ho, hmr]

theorem mem_buildWork (servers : List Server) (cache : CacheMap) (now : ℚ)
    (w : WorkItem) (hw : w ∈ buildWork servers cache now) :
    ∃ srv ∈ servers, srv.name = w.name ∧
      ∃ url, srv.repoUrl = some url ∧
        parseRepoUrl url = some (w.owner, w.repo) := by
  obtain ⟨srv, hsrv, hf⟩ := List.mem_filterMap.mp hw
  refine ⟨srv, hsrv, ?_⟩
  unfold workOf at hf
  cases hurl : srv.repoUrl with
  | none =>
      simp only [hurl] at hf
      simp at hf
  | some url =>
      simp only [hurl] at hf
      by_cases hnil : url = []
      · rw [if_pos hnil] at hf
        simp at hf
      · rw [if_neg hnil] at hf
        cases hp : parseRepoUrl url with
        | none =>
            simp only [hp] at hf
            simp at hf
        | some pr =>
            obtain ⟨po, pr2⟩ := pr
            simp only [hp] at hf
            have hw2 : w = WorkItem.mk srv.name po pr2 := by
              cases hl : dlookup srv.name cache with
              | some e =>
                  simp only [hl] at hf
                  by_cases hst : isStale e now = true
                  · rw [if_pos hst] at hf
                    exact (Option.some_inj.mp hf).symm
                  · rw [if_neg hst] at hf
                    simp at hf
              | none =>
                  simp only [hl] at hf
                  exact (Option.some_inj.mp hf).symm
            rw [hw2]
            exact ⟨rfl, url, rfl, hp⟩

/-- C10: a repo URL whose repository segment contains a dot anywhere
other than as part of a trailing .git suffix does not match the locator
regex (with or without the trailing slash the regex allows), and neither
does a URL with path segments beyond owner/repo; and every work item
comes from a server whose URL the locator regex accepted, so such
entries never enter the work list (they are skipped, not errors).
Segment characters are required to lie outside the str.strip()
whitespace set, since stripping can otherwise change the segment before
the regex sees it. -/
theorem dottedRepoUrlRejected :
    (∀ (o r : List Char), o ≠ [] → '/' ∉ o →
       (∀ c ∈ r, pyIsSpace c = false) → '/' ∉ r → '.' ∈ r →
       (∀ core, r = core ++ ['.', 'g', 'i', 't'] → core = [] ∨ '.' ∈ core) →
       parseRepoUrl (ghBase ++ (o ++ '/' :: r)) = none) ∧
    (∀ (o r : List Char), o ≠ [] → '/' ∉ o →
       (∀ c ∈ r, pyIsSpace c = false) → '.' ∈ r →
       (∀ core, r = core ++ ['.', 'g', 'i', 't'] → core = [] ∨ '.' ∈ core) →
       parseRepoUrl (ghBase ++ (o ++ '/' :: (r ++ ['/']))) = none) ∧
    (∀ (o r t : List Char), o ≠ [] → '/' ∉ o →
       (∀ c ∈ r, pyIsSpace c = false) →
       (∀ c ∈ t, pyIsSpace c = false) → t ≠ [] →
       parseRepoUrl (ghBase ++ (o ++ '/' :: (r ++ '/' :: t))) = none) ∧
    (∀ (servers : List Server) (cache : CacheMap) (now : ℚ) (w : WorkItem),
       w ∈ buildWork servers cache now →
       ∃ srv ∈ servers, srv.name = w.name ∧
         ∃ url, srv.repoUrl = some url ∧
           parseRepoUrl url = some (w.owner, w.repo)) := by
  refine ⟨?_, ?_, ?_, mem_buildWork⟩
  · intro o r ho hos hwr hsr hdr hgit
    have hrne : r ≠ [] := by
      intro e
      rw [e] at hdr
      exact absurd hdr (by simp)
    exact parseRepoUrl_none_of_bad_tail o r ho hos
      (matchRepoPart_dot r hsr hdr hgit) hwr hrne
  · intro o r ho hos hwr hdr hgit
    have hrest : ∀ c ∈ r ++ ['/'], pyIsSpace c = false := by
      intro c hc
      rcases List.mem_append.mp hc with h | h
      · exact hwr c h
      · rw [List.mem_singleton.mp h]
        decide
    exact parseRepoUrl_none_of_bad_tail o (r ++ ['/']) ho hos
      (matchRepoPart_dot_slash r hdr hgit) hrest (by simp)
  · intro o r t ho hos hwr hwt htne
    have hrest : ∀ c ∈ r ++ '/' :: t, pyIsSpace c = false := by
      intro c hc
      rcases List.mem_append.mp hc with h | h
      · exact hwr c h
      · rcases List.mem_cons.mp h with h2 | h2
        · rw [h2]
          decide
        · exact hwt c h2
    exact parseRepoUrl_none_of_bad_tail o (r ++ '/' :: t) ho hos
      (matchRepoPart_extra_seg r t htne) hrest (by simp)

theorem dottedRepoUrlRejectedWitness :
    parseRepoUrl
        (ghBase ++ (['a'] ++ '/' :: ['a', '.', 'b', '.', 'g', 'i', 't'])) =
      none ∧
    parseRepoUrl
        (ghBase ++
          (['a'] ++ '/' :: (['m', 'y', '.', 'r', 'e', 'p', 'o'] ++ ['/']))) =
      none ∧
    parseRepoUrl (ghBase ++ (['a'] ++ '/' :: (['b'] ++ '/' :: ['c']))) =
      none := by
  refine ⟨?_, ?_, ?_⟩
  · refine dottedRepoUrlRejected.1 (['a']) (['a', '.', 'b', '.', 'g', 'i', 't'])
      (by decide) (by decide) (by decide) (by decide) (by decide) ?_
    intro core hcore
    have h2 : (['a', '.', 'b'] : List Char) ++ ['.', 'g', 'i', 't'] =
        core ++ ['.', 'g', 'i', 't'] := hcore
    have h3 : (['a', '.', 'b'] : List Char) = core :=
      (List.append_inj' h2 rfl).1
    rw [← h3]
    right
    decide
  · refine dottedRepoUrlRejected.2.1 (['a']) (['m', 'y', '.', 'r', 'e', 'p', 'o'])
      (by decide) (by decide) (by decide) (by decide) ?_
    intro core hcore
    exfalso
    have h2 : (['m', 'y', '.', 'r', 'e', 'p', 'o'] : List Char).getLast? =
        (core ++ ['.', 'g', 'i', 't']).getLast? := congrArg List.getLast? hcore
    rw [show ((core ++ ['.', 'g', 'i', 't'] : List Char)).getLast? =
        some 't' from by simp] at h2
    simp at h2
  · exact dottedRepoUrlRejected.2.2.1 (['a']) (['b']) (['c'])
      (by decide) (by decide) (by decide) (by decide) (by decide)
